import Mathlib

/-!
# Verification of the castepxbin decoding engine

A shallow embedding of the core of `castepxbin` (the CASTEP binary file
reader): the Fortran record primitive, the header index builder, the
shape-resolving array decoder, the composite-record decoder, the
eigenvalue/occupancy structured decoder, the wavefunction grid
reconstructor, the top-level dispatcher, and the `WaveFunction`
constructor's occupancy fix-up.

Conventions of the embedding:
* a byte stream is a `List Nat` (each entry a byte value);
* floating point payload values are modelled as exact rationals `ℚ`
  (no claim here depends on rounding);
* Python exceptions become an explicit error type `DErr` and fallible
  functions return `Except DErr _`;
* Python dictionaries become association lists preserving insertion order.
-/

/-- Errors raised by the decoding pipeline.  The names follow the
spec's taxonomy where one exists; Python-level failures that the spec
does not name (struct unpack failure, numpy buffer/reshape/broadcast
errors, assertion failure, unbound local) keep descriptive names. -/
inductive DErr where
  | structError          -- struct.unpack on fewer than 4 bytes
  | recordMarkerMismatch -- leading/trailing record marker differ
  | ambiguousShape       -- RuntimeError in ArrayField.resolve_shape
  | numericError         -- division by a zero axis product (int(inf)/int(nan))
  | reshapeError         -- numpy ValueError from np.reshape
  | bufferShort          -- numpy frombuffer: buffer smaller than requested
  | assertionError       -- `assert offset > 0` in composite decoding
  | broadcastError       -- numpy shape-mismatched slice assignment
  | unboundLocalSpec     -- UnboundLocalError on `_spec` in read_castep_bin
  | headerNotFound       -- requested header absent from the file
  deriving DecidableEq

/-! ## Record primitive (`_read_marker`, `_read_record`) -/

/-- Big-endian 4-byte encoding of a 32-bit unsigned integer
(the inverse of `unpack(">I", ...)`). -/
def encodeBe32 (n : Nat) : List Nat :=
  [n / 2 ^ 24 % 256, n / 2 ^ 16 % 256, n / 2 ^ 8 % 256, n % 256]

/-- Big-endian interpretation of the first four bytes of a list
(`unpack(">I", f[:4])[0]`). -/
def be32val : List Nat → Nat
  | a :: b :: c :: d :: _ => ((a * 256 + b) * 256 + c) * 256 + d
  | _ => 0

/-- `_read_marker`: consume four bytes from the stream and decode them as a
big-endian `u32`; `struct.unpack` fails when fewer than four bytes remain. -/
def read_marker (s : List Nat) : Except DErr (Nat × List Nat) :=
  if 4 ≤ s.length then .ok (be32val s, s.drop 4)
  else .error .structError

/-- `_read_record`: read the leading marker, then the payload (or seek over
it when `seekOnly` is set and the payload exceeds the 512-byte threshold),
then the trailing marker; fail with `recordMarkerMismatch` when the two
markers differ.  Returns `(payload?, marker, rest-of-stream)`. -/
def read_record (s : List Nat) (seekOnly : Bool) :
    Except DErr (Option (List Nat) × Nat × List Nat) :=
  match read_marker s with
  | .error e => .error e
  | .ok (marker, s1) =>
    let step : Option (List Nat) × List Nat :=
      if marker ≤ 512 ∨ seekOnly = false then (some (s1.take marker), s1.drop marker)
      else (none, s1.drop marker)
    match read_marker step.2 with
    | .error e => .error e
    | .ok (markerEnd, s3) =>
      if marker ≠ markerEnd then .error .recordMarkerMismatch
      else .ok (step.1, marker, s3)

theorem be32val_encode (n : Nat) (h : n < 2 ^ 32) : be32val (encodeBe32 n) = n := by
  simp only [encodeBe32, be32val]
  omega

theorem encodeBe32_length (n : Nat) : (encodeBe32 n).length = 4 := rfl

theorem read_marker_encode (n : Nat) (rest : List Nat) (h : n < 2 ^ 32) :
    read_marker (encodeBe32 n ++ rest) = .ok (n, rest) := by
  have hlen : (encodeBe32 n ++ rest).length = 4 + rest.length := by
    simp [encodeBe32_length]
  have hval : be32val (encodeBe32 n ++ rest) = n := by
    simp only [encodeBe32, be32val, List.cons_append, List.nil_append]
    omega
  have hdrop : (encodeBe32 n ++ rest).drop 4 = rest := by
    simp [encodeBe32]
  simp [read_marker, hlen, hval, hdrop]

/-- Inversion for a successful non-seek read: the payload was actually
materialised and its length equals the marker. -/
theorem read_record_ok_payload (s : List Nat) (d : Option (List Nat)) (m : Nat)
    (r : List Nat) (h : read_record s false = .ok (d, m, r)) :
    ∃ p, d = some p ∧ p.length = m := by
  unfold read_record at h
  cases hm : read_marker s with
  | error e => rw [hm] at h; cases h
  | ok v =>
    obtain ⟨marker, s1⟩ := v
    rw [hm] at h
    simp only [or_true, if_true] at h
    cases hm2 : read_marker (s1.drop marker) with
    | error e => rw [hm2] at h; cases h
    | ok v2 =>
      obtain ⟨markerEnd, s3⟩ := v2
      rw [hm2] at h
      by_cases hne : marker = markerEnd
      · subst hne
        simp only [ne_eq, not_true_eq_false, if_false, ite_false,
          Except.ok.injEq, Prod.mk.injEq] at h
        refine ⟨s1.take marker, h.1.symm, ?_⟩
        -- the trailing-marker read succeeded, so at least 4 bytes remained
        -- after the payload: the stream held the full `marker` bytes.
        have hlen : 4 ≤ (s1.drop marker).length := by
          unfold read_marker at hm2
          by_cases h4 : 4 ≤ (s1.drop marker).length
          · exact h4
          · rw [if_neg h4] at hm2; cases hm2
        have : marker ≤ s1.length := by
          rw [List.length_drop] at hlen; omega
        rw [← h.2.1]
        simp [List.length_take, Nat.min_eq_left this]
      · simp [hne] at h

/-- C2: for a well-formed record the payload is returned and equals the
leading marker in length; for a record whose trailing marker differs from
the leading one, `read_record` fails with `recordMarkerMismatch` and yields
no payload; and any successful read materialises a payload whose length is
exactly the (common) marker value. -/
theorem read_record_marker_check (lead trail : Nat) (payload rest : List Nat)
    (hlead : lead < 2 ^ 32) (htrail : trail < 2 ^ 32)
    (hlen : payload.length = lead) :
    (lead = trail →
      read_record (encodeBe32 lead ++ payload ++ encodeBe32 trail ++ rest) false =
        .ok (some payload, lead, rest)) ∧
    (lead ≠ trail →
      read_record (encodeBe32 lead ++ payload ++ encodeBe32 trail ++ rest) false =
        .error .recordMarkerMismatch) ∧
    (∀ (s : List Nat) (d : Option (List Nat)) (m : Nat) (r : List Nat),
      read_record s false = .ok (d, m, r) →
      ∃ p, d = some p ∧ p.length = m) := by
  have hassoc : encodeBe32 lead ++ payload ++ encodeBe32 trail ++ rest =
      encodeBe32 lead ++ (payload ++ encodeBe32 trail ++ rest) := by
    simp only [List.append_assoc]
  have h1 : read_marker (encodeBe32 lead ++ payload ++ encodeBe32 trail ++ rest) =
      .ok (lead, payload ++ encodeBe32 trail ++ rest) := by
    rw [hassoc]; exact read_marker_encode lead _ hlead
  have htake : (payload ++ encodeBe32 trail ++ rest).take lead = payload := by
    rw [List.append_assoc, List.take_append_of_le_length (by omega),
      List.take_of_length_le (by omega)]
  have hdrop : (payload ++ encodeBe32 trail ++ rest).drop lead =
      encodeBe32 trail ++ rest := by
    rw [List.append_assoc, List.drop_append_of_le_length (by omega),
      List.drop_of_length_le (by omega), List.nil_append]
  have h2 : read_marker ((payload ++ encodeBe32 trail ++ rest).drop lead) =
      .ok (trail, rest) := by
    rw [hdrop]; exact read_marker_encode trail rest htrail
  refine ⟨?_, ?_, read_record_ok_payload⟩
  · intro heq
    subst heq
    unfold read_record
    rw [h1]
    simp only [or_true, if_true, h2, ne_eq, not_true_eq_false, if_false,
      ite_false]
    simp
    rw [← List.append_assoc]
    exact htake
  · intro hne
    unfold read_record
    rw [h1]
    simp only [or_true, if_true, h2]
    simp [hne]

/-- Witness for C2 at a concrete record: leading marker 2, payload `[7, 7]`,
trailing marker 3 raises the mismatch error; with trailing marker 2 the
payload is returned, and the payload-inversion conjunct applies to that
successful read. -/
theorem read_record_marker_check_witness :
    read_record (encodeBe32 2 ++ [7, 7] ++ encodeBe32 3 ++ []) false =
      .error .recordMarkerMismatch ∧
    read_record (encodeBe32 2 ++ [7, 7] ++ encodeBe32 2 ++ []) false =
      .ok (some [7, 7], 2, []) ∧
    (∃ p, (some [7, 7] : Option (List Nat)) = some p ∧ p.length = 2) :=
  ⟨(read_record_marker_check 2 3 [7, 7] [] (by decide) (by decide)
      (by decide)).2.1 (by decide),
   (read_record_marker_check 2 2 [7, 7] [] (by decide) (by decide)
      (by decide)).1 rfl,
   (read_record_marker_check 2 2 [7, 7] [] (by decide) (by decide)
      (by decide)).2.2 _ _ _ _
     ((read_record_marker_check 2 2 [7, 7] [] (by decide) (by decide)
      (by decide)).1 rfl)⟩

/-! ## Shape resolution (`ArrayField.resolve_shape`, `ArrayField.decode`)

Array payload values are modelled as exact rationals; a record is the list
of elements obtained from its payload bytes at the field's element width
(`np.frombuffer` with `count=-1`), so the record's length is its total
element count.  -/

/-- An axis of an `ArrayField` shape: a literal integer or a named
reference to a previously decoded scalar (`isinstance(val, str)`). -/
abbrev Axis := Int ⊕ String

/-- The decoded-value namespace restricted to its integer-valued entries,
the only ones shape resolution consults.  Keys are `Option String` because
`ArrayField.decode` stores the inferred size under `missing_dim`, which is
Python's `None` when the shape has no named axis.  Insertion order kept. -/
abbrev NS := List (Option String × Int)

/-- Dictionary lookup (first binding wins, as in a Python dict). -/
def nsFind (ns : NS) (k : Option String) : Option Int :=
  (ns.find? (fun p => p.1 == k)).map (fun p => p.2)

/-- `data.get(key, default)`. -/
def nsGetD (ns : NS) (k : String) (d : Int) : Int := (nsFind ns (some k)).getD d

/-- `data[key] = v`: overwrite an existing binding in place, else append. -/
def nsSet (ns : NS) (k : Option String) (v : Int) : NS :=
  if (nsFind ns k).isSome then ns.map (fun p => if p.1 == k then (k, v) else p)
  else ns ++ [(k, v)]

/-- The loop of `ArrayField.resolve_shape`: returns the shape with named
axes replaced by their namespace values (`-1` when absent), the number of
unresolved axes (`nunspec`), and the final value of the `missing` variable.
`missing` is assigned on *every* named axis, resolved or not, so it ends up
holding the last named axis of the shape. -/
def resolve_shape_core : List Axis → NS → List Int × Nat × Option String
  | [], _ => ([], 0, none)
  | .inl v :: rest, data =>
    let r := resolve_shape_core rest data
    (v :: r.1, r.2)
  | .inr name :: rest, data =>
    let v := nsGetD data name (-1)
    let r := resolve_shape_core rest data
    (v :: r.1, (if v = -1 then r.2.1 + 1 else r.2.1),
      match r.2.2 with
      | some m => some m
      | none => some name)

/-- `ArrayField.resolve_shape`: fail (`AmbiguousShape`) when more than one
axis is unresolved. -/
def resolve_shape (shape : List Axis) (data : NS) :
    Except DErr (List Int × Option String) :=
  let r := resolve_shape_core shape data
  if r.2.1 > 1 then .error .ambiguousShape else .ok (r.1, r.2.2)

/-- The entries of a resolved shape other than the `-1` placeholders: the
known axes. -/
def knownAxes (l : List Int) : List Int := l.filter (fun e => e ≠ -1)

/-- Validity of `np.reshape(array, shape)` for an array of `sz` elements:
entries below `-1` are invalid, at most one `-1` (inferred) entry is
allowed, an inferred entry requires the known product to be nonzero and to
divide `sz` exactly, and otherwise the shape product must equal `sz`. -/
def reshapeOK (shape : List Int) (sz : Nat) : Bool :=
  if shape.any (fun e => decide (e < -1)) then false
  else if 2 ≤ shape.count (-1) then false
  else if shape.count (-1) = 1 then
    let p := ((knownAxes shape).prod).natAbs
    decide (p ≠ 0) && decide (p ∣ sz)
  else decide (shape.prod = (sz : Int))

/-- `ArrayField.decode` against an already-read record.  `strDtype` is true
when the dtype is a fixed-width string (`"a" in self.type_string`), which
skips the final reshape for one-axis shapes.  Returns the updated
namespace, the final shape, and the elements read. -/
def array_decode (shape_spec : List Axis) (strDtype : Bool) (decoded : NS)
    (record : List ℚ) : Except DErr (NS × List Int × List ℚ) :=
  match resolve_shape shape_spec decoded with
  | .error e => .error e
  | .ok (shape, missing) =>
    if 0 < shape.prod then
      -- fully specified: `np.frombuffer(..., count=count)`
      if record.length < shape.prod.toNat then .error .bufferShort
      else
        let arr := record.take shape.prod.toNat
        if strDtype = true ∧ shape_spec.length = 1 then .ok (decoded, shape, arr)
        else if reshapeOK shape arr.length then .ok (decoded, shape, arr)
        else .error .reshapeError
    else
      -- not fully specified: read the entire record and infer the
      -- missing dimension from `-tot / prod(shape)`
      if shape.prod = 0 then .error .numericError
      else
        let left : Int := Int.ofNat (record.length / shape.prod.natAbs)
        let decoded2 := nsSet decoded missing left
        let actual := shape.map (fun e => if e = -1 then left else e)
        if strDtype = true ∧ shape_spec.length = 1 then .ok (decoded2, actual, record)
        else if reshapeOK actual record.length then .ok (decoded2, actual, record)
        else .error .reshapeError

/-- `_decode_records` restricted to a run of `ArrayField` entries, each
consuming one record from the stream and threading the shared namespace
(the general dispatcher additionally handles scalar, skip, composite and
structured entries; array fields are the only kind that touches shape
resolution). -/
def decode_array_fields : List (List Axis × Bool) → List (List ℚ) → NS →
    Except DErr (NS × List (List ℚ))
  | [], recs, ns => .ok (ns, recs)
  | (spec, sd) :: rest, recs, ns =>
    match recs with
    | [] => .error .structError
    | r :: recs1 =>
      match array_decode spec sd ns r with
      | .error e => .error e
      | .ok (ns1, _, _) => decode_array_fields rest recs1 ns1

/-- C1: evaluation of `ArrayField.decode` at the input that exhibits the
store-back bug.  Shape `("a", "b")` with `"a"` unresolved and `"b" = 2`,
record of 6 elements: the missing size 3 belongs to `"a"`, but the code
stores it under `missing`, which holds the *last* named axis `"b"`,
overwriting its correct value 2; `"a"` is never stored. -/
theorem array_decode_stores_under_last_named_axis :
    array_decode [.inr "a", .inr "b"] false [(some "b", 2)]
        (List.replicate 6 0) =
      .ok ([(some "b", 3)], [3, 2], List.replicate 6 0) ∧
    nsFind [(some "b", 3)] (some "a") = none := by
  constructor
  · rfl
  · rfl

/-! ### Auxiliary lemmas for shape arithmetic -/

theorem resolve_shape_core_length (spec : List Axis) (ns : NS) :
    (resolve_shape_core spec ns).1.length = spec.length := by
  induction spec with
  | nil => rfl
  | cons a rest ih =>
    cases a with
    | inl v => simpa [resolve_shape_core] using ih
    | inr name => simpa [resolve_shape_core] using ih

theorem knownAxes_cons (a : Int) (t : List Int) :
    knownAxes (a :: t) = if a = -1 then knownAxes t else a :: knownAxes t := by
  by_cases ha : a = -1 <;> simp [knownAxes, List.filter_cons, ha]

theorem knownAxes_of_forall_ne (t : List Int) (h : ∀ e ∈ t, e ≠ -1) :
    knownAxes t = t :=
  List.filter_eq_self.mpr (fun e he => by simpa using h e he)

theorem count_cons_self_eq_one (t : List Int) (h : List.count (-1) (-1 :: t) = 1) :
    List.count (-1) t = 0 := by
  rw [List.count_cons] at h
  simp at h
  omega

theorem count_cons_ne_eq_one (a : Int) (t : List Int) (ha : a ≠ -1)
    (h : List.count (-1) (a :: t) = 1) : List.count (-1) t = 1 := by
  rw [List.count_cons] at h
  have hb : (a == (-1 : Int)) = false := beq_eq_false_iff_ne.mpr ha
  rw [hb] at h
  simpa using h

theorem forall_ne_of_count_zero (t : List Int) (h : List.count (-1) t = 0) :
    ∀ e ∈ t, e ≠ -1 := by
  intro e he hcontra
  subst hcontra
  rw [List.count_eq_zero] at h
  exact h he

theorem prod_of_count_neg_one (l : List Int) (h : List.count (-1) l = 1) :
    l.prod = -(knownAxes l).prod := by
  induction l with
  | nil => simp at h
  | cons a t ih =>
    rw [List.prod_cons, knownAxes_cons]
    by_cases ha : a = -1
    · subst ha
      rw [if_pos rfl]
      have hmem := forall_ne_of_count_zero t (count_cons_self_eq_one t h)
      rw [knownAxes_of_forall_ne t hmem]
      ring
    · rw [if_neg ha, List.prod_cons, ih (count_cons_ne_eq_one a t ha h)]
      ring

theorem prod_map_replace_neg_one (l : List Int) (left : Int)
    (h : List.count (-1) l = 1) :
    (l.map (fun e => if e = -1 then left else e)).prod =
      left * (knownAxes l).prod := by
  induction l with
  | nil => simp at h
  | cons a t ih =>
    rw [List.map_cons, List.prod_cons, knownAxes_cons]
    by_cases ha : a = -1
    · subst ha
      rw [if_pos rfl, if_pos rfl]
      have hmem := forall_ne_of_count_zero t (count_cons_self_eq_one t h)
      have hmap : t.map (fun e => if e = -1 then left else e) = t := by
        have hid : ∀ e ∈ t, (if e = -1 then left else e) = id e :=
          fun e he => by rw [if_neg (hmem e he)]; rfl
        rw [List.map_congr_left hid, List.map_id]
      rw [hmap, knownAxes_of_forall_ne t hmem]
    · rw [if_neg ha, if_neg ha, List.prod_cons,
        ih (count_cons_ne_eq_one a t ha h)]
      ring

theorem exists_neg_of_prod_neg (l : List Int) (h : l.prod < 0) :
    ∃ e ∈ l, e < 0 := by
  by_contra hc
  push_neg at hc
  exact absurd (List.prod_nonneg hc) (by omega)


/-- C6: for an array field with exactly one unresolved axis whose record's
total element count is not an exact multiple of the product of the known
axes, `ArrayField.decode` fails rather than accepting a truncated axis
value: the floored inferred size makes the final reshape fail, and a zero
known axis aborts the division itself.  (The field tables never declare a
literal `-1` axis, so "exactly one unresolved axis" is the resolved shape
containing exactly one `-1` entry.) -/
theorem array_decode_inexact_division (spec : List Axis) (sd : Bool) (ns : NS)
    (record : List ℚ) (shape : List Int) (missing : Option String)
    (hres : resolve_shape spec ns = .ok (shape, missing))
    (hone : List.count (-1) shape = 1)
    (hdvd : ¬ ((knownAxes shape).prod.natAbs ∣ record.length)) :
    ∃ e, array_decode spec sd ns record = .error e := by
  have hprod := prod_of_count_neg_one shape hone
  have hlenspec : shape.length = spec.length := by
    have hs : shape = (resolve_shape_core spec ns).1 := by
      unfold resolve_shape at hres
      by_cases hgt : (resolve_shape_core spec ns).2.1 > 1
      · rw [if_pos hgt] at hres; cases hres
      · rw [if_neg hgt] at hres
        cases hres
        rfl
    rw [hs, resolve_shape_core_length]
  have hstr : ¬ (sd = true ∧ spec.length = 1) := by
    rintro ⟨-, hs1⟩
    have h1 : shape.length = 1 := by omega
    obtain ⟨a, ha⟩ := List.length_eq_one.mp h1
    subst ha
    have : a = -1 := by
      by_cases hc : a = -1
      · exact hc
      · exact absurd hone (by simp [List.count_singleton', hc, Ne.symm hc])
    subst this
    have : knownAxes [(-1 : Int)] = [] := rfl
    rw [this] at hdvd
    simp at hdvd
  unfold array_decode
  rw [hres]
  dsimp only
  rcases lt_trichotomy ((knownAxes shape).prod) 0 with hP | hP | hP
  · -- known product negative: shape product positive, fully-specified branch
    have hpos : 0 < shape.prod := by rw [hprod]; omega
    rw [if_pos hpos]
    by_cases hlen : record.length < shape.prod.toNat
    · rw [if_pos hlen]; exact ⟨_, rfl⟩
    · rw [if_neg hlen, if_neg hstr]
      obtain ⟨e, he, heneg⟩ := exists_neg_of_prod_neg _ hP
      have heshape : e ∈ shape := (List.mem_filter.mp he).1
      have hene : e ≠ -1 := by
        have := (List.mem_filter.mp he).2
        simpa using this
      have hany : shape.any (fun e => decide (e < -1)) = true := by
        rw [List.any_eq_true]
        exact ⟨e, heshape, by simp; omega⟩
      have hrOK : ∀ sz, reshapeOK shape sz = false := by
        intro sz
        unfold reshapeOK
        rw [if_pos hany]
      rw [if_neg (by simp [hrOK])]
      exact ⟨_, rfl⟩
  · -- known product zero: the division `-tot / prod` aborts
    have hz : shape.prod = 0 := by rw [hprod]; omega
    rw [if_neg (by omega), if_pos hz]
    exact ⟨_, rfl⟩
  · -- known product positive: inferred axis is floored, reshape fails
    have hneg : shape.prod < 0 := by rw [hprod]; omega
    rw [if_neg (by omega), if_neg (by omega), if_neg hstr]
    set left : Int := Int.ofNat (record.length / shape.prod.natAbs) with hleft
    have hreplace := prod_map_replace_neg_one shape left hone
    by_cases hany : shape.any (fun e => decide (e < -1)) = true
    · -- an invalid negative axis survives into the reshape
      obtain ⟨e, he, helt⟩ := List.any_eq_true.mp hany
      have helt' : e < -1 := by simpa using helt
      have hmem : e ∈ shape.map (fun x => if x = -1 then left else x) := by
        rw [List.mem_map]
        exact ⟨e, he, by rw [if_neg (by omega)]⟩
      have hany2 : (shape.map (fun x => if x = -1 then left else x)).any
          (fun e => decide (e < -1)) = true := by
        rw [List.any_eq_true]
        exact ⟨e, hmem, helt⟩
      have hrOK : ∀ sz, reshapeOK (shape.map (fun x => if x = -1 then left else x)) sz = false := by
        intro sz
        unfold reshapeOK
        rw [if_pos hany2]
      rw [if_neg (by simp [hrOK])]
      exact ⟨_, rfl⟩
    · -- all axes valid: the product check `prod = tot` fails
      have hforall : ∀ e ∈ shape, ¬ e < -1 := by
        intro e he
        by_contra hcon
        exact hany (List.any_eq_true.mpr ⟨e, he, by simpa using hcon⟩)
      have hleftnn : 0 ≤ left := Int.ofNat_nonneg _
      have hnomem : (-1 : Int) ∉ shape.map (fun x => if x = -1 then left else x) := by
        rw [List.mem_map]
        rintro ⟨e, he, heq⟩
        by_cases hc : e = -1
        · rw [if_pos hc] at heq; omega
        · rw [if_neg hc] at heq; exact hc heq
      have hcount0 : List.count (-1) (shape.map (fun x => if x = -1 then left else x)) = 0 :=
        List.count_eq_zero.mpr hnomem
      have hany3 : (shape.map (fun x => if x = -1 then left else x)).any
          (fun e => decide (e < -1)) = false := by
        rw [List.any_eq_false]
        intro e hmem
        rw [List.mem_map] at hmem
        obtain ⟨x, hx, hxe⟩ := hmem
        by_cases hc : x = -1
        · rw [if_pos hc] at hxe; simp; omega
        · rw [if_neg hc] at hxe
          have := hforall x hx
          simp
          omega
      -- the reshaped product is (tot / p) * p ≠ tot
      have hcast : ((knownAxes shape).prod.natAbs : Int) = (knownAxes shape).prod :=
        Int.natAbs_of_nonneg (le_of_lt hP)
      obtain ⟨q, hq⟩ : ∃ q : Nat, (knownAxes shape).prod = (q : Int) :=
        ⟨(knownAxes shape).prod.natAbs, hcast.symm⟩
      have hqabs : (knownAxes shape).prod.natAbs = q := by
        rw [hq, Int.natAbs_ofNat]
      have habs : shape.prod.natAbs = q := by
        rw [hprod, Int.natAbs_neg, hqabs]
      have hprodne : (shape.map (fun x => if x = -1 then left else x)).prod ≠
          (record.length : Int) := by
        rw [hreplace, hleft, habs, hq]
        intro hcon
        apply hdvd
        rw [hqabs]
        have hcon2 : ((record.length / q * q : Nat) : Int) = (record.length : Int) := by
          rw [Int.ofNat_eq_coe] at hcon
          push_cast
          exact hcon
        have hnat : record.length / q * q = record.length :=
          Nat.cast_injective hcon2
        exact ⟨record.length / q, by rw [Nat.mul_comm]; exact hnat.symm⟩
      have hrOK : reshapeOK (shape.map (fun x => if x = -1 then left else x))
          record.length = false := by
        unfold reshapeOK
        rw [if_neg (by simp [hany3]), if_neg (by omega), if_neg (by omega)]
        simpa using hprodne
      rw [if_neg (by simp [hrOK])]
      exact ⟨_, rfl⟩

/-- Witness for C6: shape `("n", 2)` with `"n"` unresolved and a 5-element
record; 5 is not a multiple of 2, so decoding fails. -/
theorem array_decode_inexact_division_witness :
    ∃ e, array_decode [.inr "n", .inl 2] false [] (List.replicate 5 0) =
      .error e :=
  array_decode_inexact_division [.inr "n", .inl 2] false [] (List.replicate 5 0)
    [-1, 2] (some "n") rfl (by decide) (by decide)


/-! ### Single-field decode lemmas used for the in-order pass analysis -/

/-- Decoding a one-axis array whose named axis is absent from the namespace:
the axis is inferred from the record's own length and appended to the
namespace. -/
theorem array_decode_single_unknown (n : String) (ns : NS) (record : List ℚ)
    (hns : nsFind ns (some n) = none) :
    array_decode [Sum.inr n] false ns record =
      .ok (ns ++ [(some n, (record.length : Int))],
        [(record.length : Int)], record) := by
  have hget : nsGetD ns n (-1) = -1 := by
    unfold nsGetD
    rw [hns]
    rfl
  have hres : resolve_shape [Sum.inr n] ns = .ok ([-1], some n) := by
    unfold resolve_shape resolve_shape_core
    rw [hget]
    rfl
  unfold array_decode
  rw [hres]
  dsimp only
  have hc1 : ¬ (0 < List.prod [(-1 : Int)]) := by simp
  have hc2 : ¬ (List.prod [(-1 : Int)] = 0) := by simp
  have hc3 : ¬ (false = true ∧ ([Sum.inr n] : List Axis).length = 1) := by simp
  rw [if_neg hc1, if_neg hc2, if_neg hc3]
  have hnatabs : (List.prod [(-1 : Int)]).natAbs = 1 := rfl
  have hset : nsSet ns (some n)
      (Int.ofNat (record.length / (List.prod [(-1 : Int)]).natAbs)) =
      ns ++ [(some n, (record.length : Int))] := by
    unfold nsSet
    rw [hns]
    simp [hnatabs]
  have hmap : (List.map
      (fun e => if e = -1 then
        Int.ofNat (record.length / (List.prod [(-1 : Int)]).natAbs) else e)
      [-1]) = [(record.length : Int)] := by
    simp [hnatabs]
  rw [hset, hmap]
  have hrOK : reshapeOK [(record.length : Int)] record.length = true := by
    unfold reshapeOK
    have h1 : (List.any [(record.length : Int)] fun e => decide (e < -1)) = false := by
      simp
      omega
    have h2 : List.count (-1) [(record.length : Int)] = 0 := by
      rw [List.count_eq_zero]
      simp
    rw [if_neg (by simp [h1]), if_neg (by omega), if_neg (by omega)]
    simp
  rw [if_pos hrOK]

/-- Decoding a one-axis array whose named axis resolves to a positive value
`k`: exactly `k` elements are read and the namespace is unchanged. -/
theorem array_decode_single_known (k : Nat) (n : String) (ns : NS)
    (record : List ℚ) (hk : 0 < k) (hns : nsGetD ns n (-1) = (k : Int))
    (hlen : k ≤ record.length) :
    array_decode [Sum.inr n] false ns record =
      .ok (ns, [(k : Int)], record.take k) := by
  have hkne : ¬ ((k : Int) = -1) := by omega
  have hcore : resolve_shape_core [Sum.inr n] ns = ([(k : Int)], 0, some n) := by
    unfold resolve_shape_core
    rw [hns]
    dsimp only
    rw [if_neg hkne]
    rfl
  have hres : resolve_shape [Sum.inr n] ns = .ok ([(k : Int)], some n) := by
    unfold resolve_shape
    rw [hcore]
    rfl
  unfold array_decode
  rw [hres]
  dsimp only
  have hprodk : List.prod [(k : Int)] = (k : Int) := by simp
  have hc1 : 0 < List.prod [(k : Int)] := by rw [hprodk]; exact_mod_cast hk
  rw [if_pos hc1]
  have htonat : (List.prod [(k : Int)]).toNat = k := by rw [hprodk]; simp
  rw [htonat]
  have hc2 : ¬ (record.length < k) := by omega
  have hc3 : ¬ (false = true ∧ ([Sum.inr n] : List Axis).length = 1) := by simp
  rw [if_neg hc2, if_neg hc3]
  have htklen : (record.take k).length = k := by
    rw [List.length_take]
    omega
  have hrOK : reshapeOK [(k : Int)] (record.take k).length = true := by
    unfold reshapeOK
    have h1 : (List.any [(k : Int)] fun e => decide (e < -1)) = false := by
      simp
      omega
    have h2 : List.count (-1) [(k : Int)] = 0 := by
      rw [List.count_eq_zero]
      simp
    rw [if_neg (by simp [h1]), if_neg (by omega), if_neg (by omega)]
    simp [htklen]
  rw [if_pos hrOK]

/-- C3 counterexample: two array fields both depending on the unknown axis
`"n"`, with no literal value for `"n"` anywhere, decode *successfully* in a
single pass (the first field infers `n = 4` from its own record length),
contradicting the claim that this must fail with `UnresolvableShape`. -/
theorem decode_array_fields_shared_axis_no_anchor :
    decode_array_fields [([Sum.inr "n"], false), ([Sum.inr "n"], false)]
      [List.replicate 4 0, List.replicate 4 0] [] =
      .ok ([(some "n", 4)], []) := by
  rfl

/-- C3 (amended): there is no deferred fixed-point pass; array fields are
decoded in their declaration order in a single pass.  (a) A field whose
shape has two or more unresolved named axes aborts the whole decode
immediately with the ambiguous-shape error, regardless of the fields that
follow; (b) two one-axis array fields that share one unknown axis name
with no literal anchor anywhere both resolve consistently in one pass: the
first infers the axis from its own record length and stores it in the
namespace, and the second reads that stored value back. -/
theorem decode_array_fields_single_pass :
    (∀ (spec : List Axis) (sd : Bool) (ns : NS) (r : List ℚ)
        (recs : List (List ℚ)) (rest : List (List Axis × Bool)),
      2 ≤ (resolve_shape_core spec ns).2.1 →
      decode_array_fields ((spec, sd) :: rest) (r :: recs) ns =
        .error .ambiguousShape) ∧
    (∀ (n : String) (r1 r2 : List ℚ), 0 < r1.length →
      r1.length ≤ r2.length →
      decode_array_fields [([Sum.inr n], false), ([Sum.inr n], false)]
        [r1, r2] [] = .ok ([(some n, (r1.length : Int))], [])) := by
  constructor
  · intro spec sd ns r recs rest h2
    have hrs : resolve_shape spec ns = .error .ambiguousShape := by
      unfold resolve_shape
      rw [if_pos (by omega)]
    show (match array_decode spec sd ns r with
      | Except.error e => Except.error e
      | Except.ok (ns1, _, _) => decode_array_fields rest recs ns1) =
        Except.error DErr.ambiguousShape
    unfold array_decode
    rw [hrs]
  · intro n r1 r2 h1 h2
    have hstep1 := array_decode_single_unknown n [] r1 rfl
    have hget : nsGetD [(some n, (r1.length : Int))] n (-1) = (r1.length : Int) := by
      unfold nsGetD nsFind
      simp
    have hstep2 := array_decode_single_known r1.length n
      [(some n, (r1.length : Int))] r2 h1 hget h2
    show (match array_decode [Sum.inr n] false [] r1 with
      | Except.error e => Except.error e
      | Except.ok (ns1, _, _) =>
          decode_array_fields [([Sum.inr n], false)] [r2] ns1) =
        Except.ok ([(some n, (r1.length : Int))], [])
    rw [hstep1]
    show (match array_decode [Sum.inr n] false [(some n, (r1.length : Int))] r2 with
      | Except.error e => Except.error e
      | Except.ok (ns1, _, _) => decode_array_fields [] [] ns1) =
        Except.ok ([(some n, (r1.length : Int))], [])
    rw [hstep2]
    rfl

/-- Witness for the amended C3 theorem: a field with two unknown axes
aborts immediately, and the shared-axis pair resolves consistently. -/
theorem decode_array_fields_single_pass_witness :
    decode_array_fields [([Sum.inr "a", Sum.inr "b"], false)]
      [List.replicate 6 0] [] = .error .ambiguousShape ∧
    decode_array_fields [([Sum.inr "n"], false), ([Sum.inr "n"], false)]
      [[1], [2]] [] = .ok ([(some "n", 1)], []) :=
  ⟨decode_array_fields_single_pass.1 [Sum.inr "a", Sum.inr "b"] false [] 
      (List.replicate 6 0) [] [] (by decide),
   decode_array_fields_single_pass.2 "n" [1] [2] (by decide) (by decide)⟩

/-! ## Eigenvalue/occupancy block (`EigenValueAndOccCompositeField.decode`)

This decoder reads whole records from the stream; a stream is modelled at
record granularity as a `List (List ℚ)` (each record already split into
its 8-byte float elements).  -/

/-- `_read_record` at record granularity: reading at end-of-stream fails
(struct.unpack on empty bytes). -/
def takeRec : List (List ℚ) → Except DErr (List ℚ × List (List ℚ))
  | [] => .error .structError
  | r :: rs => .ok (r, rs)

/-- numpy slice assignment `target[:n] = rhs`: the right-hand side must
have length `n`, or length 1 (broadcast). -/
def sliceAssign (exp : Nat) (l : List ℚ) : Option (List ℚ) :=
  if l.length = exp then some l
  else if l.length = 1 then some (List.replicate exp (l.headD 0))
  else none

/-- The spin loop of `EigenValueAndOccCompositeField.decode`: per spin, one
record of `nbands` occupancies then one record of `nbands` eigenvalues.
Returns the per-spin occupancy and eigenvalue columns and the remaining
stream. -/
def eig_spin_loop (nbands : Nat) : Nat → List (List ℚ) →
    Except DErr ((List (List ℚ) × List (List ℚ)) × List (List ℚ))
  | 0, recs => .ok (([], []), recs)
  | nspin + 1, recs =>
    match takeRec recs with
    | .error e => .error e
    | .ok (occRec, recs1) =>
      match sliceAssign nbands occRec with
      | none => .error .broadcastError
      | some occCol =>
        match takeRec recs1 with
        | .error e => .error e
        | .ok (eigRec, recs2) =>
          match sliceAssign nbands eigRec with
          | none => .error .broadcastError
          | some eigCol =>
            match eig_spin_loop nbands nspin recs2 with
            | .error e => .error e
            | .ok ((os, es), recs3) => .ok ((occCol :: os, eigCol :: es), recs3)

/-- `EigenValueAndOccCompositeField.decode`: for each k-point, one record of
3 values (the k-point coordinate) is read *once, before the spin loop*,
then the spin loop reads the occupancy/eigenvalue records.  The result
`(ks, occs, eigs)` carries the same data as the source's arrays:
`ks[ik] = kpoints[:, ik]` of the `(3, nkpts)` array, and
`occs[ik][ispin] = occ[:, ik, ispin]` of the `(nbands, nkpts, nspin)`
array (likewise `eigs`). -/
def eig_occ_decode (nbands nspin : Nat) : Nat → List (List ℚ) →
    Except DErr ((List (List ℚ) × List (List (List ℚ)) × List (List (List ℚ)))
      × List (List ℚ))
  | 0, recs => .ok (([], [], []), recs)
  | nk + 1, recs =>
    match takeRec recs with
    | .error e => .error e
    | .ok (kRec, recs1) =>
      match sliceAssign 3 kRec with
      | none => .error .broadcastError
      | some kCol =>
        match eig_spin_loop nbands nspin recs1 with
        | .error e => .error e
        | .ok ((os, es), recs2) =>
          match eig_occ_decode nbands nspin nk recs2 with
          | .error e => .error e
          | .ok ((ks, occs, eigs), recs3) =>
            .ok ((kCol :: ks, os :: occs, es :: eigs), recs3)

/-- The eigenvalue/occupancy protocol as the claim words it (one 3-value
coordinate record per *(k-point, spin)* pair, only the last spin's read
kept, then the occupancy and eigenvalue records).  This definition follows
the spec's words and exists only to be compared with `eig_occ_decode`;
`kcur` is the current content of the coordinate column (initially the
`np.zeros` fill). -/
def eig_spin_loop_claim (nbands : Nat) (kcur : List ℚ) : Nat → List (List ℚ) →
    Except DErr ((List ℚ × List (List ℚ) × List (List ℚ)) × List (List ℚ))
  | 0, recs => .ok ((kcur, [], []), recs)
  | nspin + 1, recs =>
    match takeRec recs with
    | .error e => .error e
    | .ok (kRec, recs0) =>
      match sliceAssign 3 kRec with
      | none => .error .broadcastError
      | some kCol =>
        match takeRec recs0 with
        | .error e => .error e
        | .ok (occRec, recs1) =>
          match sliceAssign nbands occRec with
          | none => .error .broadcastError
          | some occCol =>
            match takeRec recs1 with
            | .error e => .error e
            | .ok (eigRec, recs2) =>
              match sliceAssign nbands eigRec with
              | none => .error .broadcastError
              | some eigCol =>
                match eig_spin_loop_claim nbands kCol nspin recs2 with
                | .error e => .error e
                | .ok ((kLast, os, es), recs3) =>
                  .ok ((kLast, occCol :: os, eigCol :: es), recs3)

/-- Per-k-point loop of the claim-worded protocol. -/
def eig_occ_decode_claim (nbands nspin : Nat) : Nat → List (List ℚ) →
    Except DErr ((List (List ℚ) × List (List (List ℚ)) × List (List (List ℚ)))
      × List (List ℚ))
  | 0, recs => .ok (([], [], []), recs)
  | nk + 1, recs =>
    match eig_spin_loop_claim nbands [0, 0, 0] nspin recs with
    | .error e => .error e
    | .ok ((kCol, os, es), recs2) =>
      match eig_occ_decode_claim nbands nspin nk recs2 with
      | .error e => .error e
      | .ok ((ks, occs, eigs), recs3) =>
        .ok ((kCol :: ks, os :: occs, es :: eigs), recs3)

/-- C4 counterexample: with 1 band, 2 spins, 1 k-point and the 5-record
stream actually produced by the source layout, the code's decoder succeeds
consuming all 5 records, while the claim's per-(k-point, spin) coordinate
read runs off the end of the stream: the coordinate record is read once
per k-point, not once per spin. -/
theorem eig_occ_decode_counterexample :
    eig_occ_decode 1 2 1 [[1, 2, 3], [4], [5], [6], [7]] =
      .ok (([[1, 2, 3]], [[[4], [6]]], [[[5], [7]]]), []) ∧
    eig_occ_decode_claim 1 2 1 [[1, 2, 3], [4], [5], [6], [7]] =
      .error .structError :=
  ⟨rfl, rfl⟩

/-- Interleave per-spin (occupancy, eigenvalue) record pairs. -/
def spinRecs (pairs : List (List ℚ × List ℚ)) : List (List ℚ) :=
  (pairs.map (fun p => [p.1, p.2])).flatten

/-- The record layout of an eigenvalue/occupancy section: per k-point one
coordinate record followed by that k-point's per-spin record pairs. -/
def eigStream (groups : List (List ℚ × List (List ℚ × List ℚ))) :
    List (List ℚ) :=
  (groups.map (fun g => g.1 :: spinRecs g.2)).flatten

theorem eig_spin_loop_spinRecs (B : Nat) (pairs : List (List ℚ × List ℚ))
    (rest : List (List ℚ))
    (h : ∀ p ∈ pairs, p.1.length = B ∧ p.2.length = B) :
    eig_spin_loop B pairs.length (spinRecs pairs ++ rest) =
      .ok ((pairs.map (fun p => p.1), pairs.map (fun p => p.2)), rest) := by
  induction pairs with
  | nil => rfl
  | cons p ps ih =>
    have hp := h p (List.mem_cons_self p ps)
    have ha1 : sliceAssign B p.1 = some p.1 := by
      unfold sliceAssign; rw [if_pos hp.1]
    have ha2 : sliceAssign B p.2 = some p.2 := by
      unfold sliceAssign; rw [if_pos hp.2]
    have hs : spinRecs (p :: ps) ++ rest = p.1 :: p.2 :: (spinRecs ps ++ rest) := by
      simp [spinRecs]
    rw [List.length_cons, hs]
    simp only [eig_spin_loop, takeRec, ha1, ha2]
    rw [ih (fun q hq => h q (List.mem_cons_of_mem p hq))]
    rfl

/-- C4 (amended): in the source layout the coordinate record is read once
per k-point, before the spin loop.  For a stream laid out as, per k-point,
one 3-value coordinate record followed by, per spin, one `B`-value
occupancy record and one `B`-value eigenvalue record, the decoder consumes
exactly those records in that order and returns the coordinates (one
3-vector per k-point, i.e. the `(3, K)` array) and the occupancy and
eigenvalue columns (one `B`-vector per k-point and spin, i.e. the
`(B, K, S)` arrays). -/
theorem eig_occ_decode_layout (B S : Nat)
    (groups : List (List ℚ × List (List ℚ × List ℚ))) (rest : List (List ℚ))
    (hk : ∀ g ∈ groups, g.1.length = 3)
    (hsp : ∀ g ∈ groups, g.2.length = S)
    (hbl : ∀ g ∈ groups, ∀ p ∈ g.2, p.1.length = B ∧ p.2.length = B) :
    eig_occ_decode B S groups.length (eigStream groups ++ rest) =
      .ok ((groups.map (fun g => g.1),
            groups.map (fun g => g.2.map (fun p => p.1)),
            groups.map (fun g => g.2.map (fun p => p.2))), rest) ∧
    (∀ c ∈ groups.map (fun g => g.1), c.length = 3) ∧
    (∀ o ∈ groups.map (fun g => g.2.map (fun p => p.1)), o.length = S) ∧
    (∀ o ∈ groups.map (fun g => g.2.map (fun p => p.1)), ∀ col ∈ o,
      col.length = B) ∧
    (∀ o ∈ groups.map (fun g => g.2.map (fun p => p.2)), o.length = S) ∧
    (∀ o ∈ groups.map (fun g => g.2.map (fun p => p.2)), ∀ col ∈ o,
      col.length = B) := by
  refine ⟨?_, ?_, ?_, ?_, ?_, ?_⟩
  · induction groups with
    | nil => rfl
    | cons g gs ih =>
      have hg1 := hk g (List.mem_cons_self g gs)
      have hgs := hsp g (List.mem_cons_self g gs)
      have hgb := hbl g (List.mem_cons_self g gs)
      have hstream : eigStream (g :: gs) ++ rest =
          g.1 :: (spinRecs g.2 ++ (eigStream gs ++ rest)) := by
        simp [eigStream]
      have hk3 : sliceAssign 3 g.1 = some g.1 := by
        unfold sliceAssign; rw [if_pos hg1]
      have hspin := eig_spin_loop_spinRecs B g.2 (eigStream gs ++ rest) hgb
      rw [hgs] at hspin
      rw [List.length_cons, hstream]
      simp only [eig_occ_decode, takeRec, hk3]
      rw [hspin]
      dsimp only
      rw [ih (fun g' hg' => hk g' (List.mem_cons_of_mem g hg'))
           (fun g' hg' => hsp g' (List.mem_cons_of_mem g hg'))
           (fun g' hg' => hbl g' (List.mem_cons_of_mem g hg'))]
      rfl
  · intro c hc
    rw [List.mem_map] at hc
    obtain ⟨g, hg, rfl⟩ := hc
    exact hk g hg
  · intro o ho
    rw [List.mem_map] at ho
    obtain ⟨g, hg, rfl⟩ := ho
    rw [List.length_map]
    exact hsp g hg
  · intro o ho col hcol
    rw [List.mem_map] at ho
    obtain ⟨g, hg, rfl⟩ := ho
    rw [List.mem_map] at hcol
    obtain ⟨p, hp, rfl⟩ := hcol
    exact (hbl g hg p hp).1
  · intro o ho
    rw [List.mem_map] at ho
    obtain ⟨g, hg, rfl⟩ := ho
    rw [List.length_map]
    exact hsp g hg
  · intro o ho col hcol
    rw [List.mem_map] at ho
    obtain ⟨g, hg, rfl⟩ := ho
    rw [List.mem_map] at hcol
    obtain ⟨p, hp, rfl⟩ := hcol
    exact (hbl g hg p hp).2

/-- Witness for the amended C4 theorem at B = 1, S = 2, K = 1. -/
theorem eig_occ_decode_layout_witness :
    eig_occ_decode 1 2 1
        (eigStream [([1, 2, 3], [([4], [5]), ([6], [7])])] ++ []) =
      .ok (([[1, 2, 3]], [[[4], [6]]], [[[5], [7]]]), []) :=
  (eig_occ_decode_layout 1 2 [([1, 2, 3], [([4], [5]), ([6], [7])])] []
    (by decide) (by decide) (by decide)).1

/-! ## Composite records (`_decode_composite`, composite branch of
`_decode_records`)

A composite record packs several sub-fields into one physical record,
consumed via a running byte cursor.  A sub-field is characterised by its
element byte-width (the number in its dtype string: 4 for `i4`, 8 for
`f8`, 16 for `c16`) and its resolved element count (1 for a scalar, the
product of the resolved shape for an array).  A sub-field's value is the
byte slice it parses: `np.frombuffer` reads `width * count` bytes from the
start of the current record slice.  The cursor advance is
`int(subspec.type_string[-1]) * count`: the *last digit* of the dtype
string, i.e. `width % 10`, times the count. -/

structure SubField where
  width : Nat
  count : Nat
  deriving DecidableEq

/-- The byte-cursor walk shared by `_decode_composite` and the composite
branch of `_decode_records`: per sub-field, `offset` is asserted positive,
the sub-field parses its bytes from the current slice, and the slice is
advanced by `offset`.  Returns the byte slice parsed by each sub-field. -/
def decode_composite : List SubField → List Nat → Except DErr (List (List Nat))
  | [], _ => .ok []
  | f :: rest, record =>
    let offset := f.width % 10 * f.count
    if offset = 0 then .error .assertionError
    else if record.length < f.width * f.count then .error .bufferShort
    else
      match decode_composite rest (record.drop offset) with
      | .error e => .error e
      | .ok vals => .ok (record.take (f.width * f.count) :: vals)

/-- C5: cursor advance over a composite record.  A complex (`c16`) scalar
followed by an integer (`i4`) scalar over a 20-byte record: the complex
sub-field parses its full 16 bytes, but the cursor advances by only
`int("c16"[-1]) = 6`, so the integer parses bytes 6–9 (inside the complex
value) instead of bytes 16–19.  For `i4`/`f8` sub-fields the single-digit
width makes the advance equal width × count, as a correct second
evaluation shows. -/
theorem decode_composite_complex_advance :
    decode_composite [⟨16, 1⟩, ⟨4, 1⟩] (List.range 20) =
      .ok [List.range 16, [6, 7, 8, 9]] ∧
    decode_composite [⟨8, 1⟩, ⟨4, 1⟩] (List.range 12) =
      .ok [List.range 8, [8, 9, 10, 11]] := by
  constructor
  · rfl
  · rfl

/-! ## Wavefunction grid reconstructor (`coords_to_indices`, `coeff_to_recip`) -/

/-- `coords_to_indices` on one signed reciprocal-lattice index: Python's
`%` with a positive modulus (the nonnegative residue). -/
def coords_to_indices (c : Int) (n : Nat) : Nat := (c % (n : Int)).toNat

/-- Per-axis wrap of an index triple into `[0,nx) × [0,ny) × [0,nz)`. -/
def wrap3 (c : Int × Int × Int) (m : Nat × Nat × Nat) : Nat × Nat × Nat :=
  (coords_to_indices c.1 m.1, coords_to_indices c.2.1 m.2.1,
    coords_to_indices c.2.2 m.2.2)

/-- `coeff_to_recip`: the value of the dense reciprocal grid at cell `cell`
for output indices `(ispinor, ib, ik, ispin)`.  The source's five nested
loops scatter `coeffs[ipw, ispinor, ib, ik, ispin]` into the
zero-initialised grid at the wrapped coordinate of plane wave `ipw`, for
`ipw < nwaves_at_kp[ik]` only; a grid cell is written only by iterations
with its own `(ispinor, ib, ik, ispin)` and a matching wrapped coordinate,
and `ipw` ascending means the last matching slot wins — which is exactly
this fold. -/
def coeff_to_recip (nwaves : Nat → Nat) (gcoords : Nat → Nat → Int × Int × Int)
    (mesh : Nat × Nat × Nat) (coeffs : Nat → Nat → Nat → Nat → Nat → ℚ)
    (cell : Nat × Nat × Nat) (ispinor ib ik ispin : Nat) : ℚ :=
  (List.range (nwaves ik)).foldl
    (fun acc ipw =>
      if wrap3 (gcoords ipw ik) mesh = cell then coeffs ipw ispinor ib ik ispin
      else acc) 0

theorem scatter_fold_no_match (nw : Nat) (g : Nat → Int × Int × Int)
    (mesh : Nat × Nat × Nat) (v : Nat → ℚ) (cell : Nat × Nat × Nat)
    (h : ∀ ipw < nw, wrap3 (g ipw) mesh ≠ cell) :
    (List.range nw).foldl
      (fun acc ipw => if wrap3 (g ipw) mesh = cell then v ipw else acc) 0 = 0 := by
  induction nw with
  | zero => rfl
  | succ n ih =>
    rw [List.range_succ, List.foldl_append]
    simp only [List.foldl_cons, List.foldl_nil]
    rw [if_neg (h n (Nat.lt_succ_self n))]
    exact ih (fun i hi => h i (Nat.lt_succ_of_lt hi))

theorem scatter_fold_unique (nw : Nat) (g : Nat → Int × Int × Int)
    (mesh : Nat × Nat × Nat) (v : Nat → ℚ) (cell : Nat × Nat × Nat) (j : Nat)
    (hj : j < nw) (hcell : wrap3 (g j) mesh = cell)
    (huniq : ∀ i < nw, i ≠ j → wrap3 (g i) mesh ≠ cell) :
    (List.range nw).foldl
      (fun acc ipw => if wrap3 (g ipw) mesh = cell then v ipw else acc) 0 =
      v j := by
  induction nw with
  | zero => omega
  | succ n ih =>
    rw [List.range_succ, List.foldl_append]
    simp only [List.foldl_cons, List.foldl_nil]
    by_cases hjn : j = n
    · subst hjn
      rw [if_pos hcell]
    · rw [if_neg (huniq n (Nat.lt_succ_self n) (fun hc => hjn hc.symm))]
      exact ih (by omega) (fun i hi hij => huniq i (Nat.lt_succ_of_lt hi) hij)

/-- C7: the grid reconstructor wraps each signed index triple into the mesh
box by per-axis modulo; for each `(spin, k, band, spinor)` only plane-wave
slots below `nwaves_at_kp[ik]` are scattered; a cell hit by no slot stays
zero, and a cell hit by exactly one slot holds that slot's coefficient. -/
theorem coeff_to_recip_scatter (nx ny nz : Nat)
    (hx : 0 < nx) (hy : 0 < ny) (hz : 0 < nz)
    (nwaves : Nat → Nat) (gcoords : Nat → Nat → Int × Int × Int)
    (coeffs : Nat → Nat → Nat → Nat → Nat → ℚ) :
    (∀ ipw ik, (wrap3 (gcoords ipw ik) (nx, ny, nz)).1 < nx ∧
      (wrap3 (gcoords ipw ik) (nx, ny, nz)).2.1 < ny ∧
      (wrap3 (gcoords ipw ik) (nx, ny, nz)).2.2 < nz) ∧
    (∀ cell ispinor ib ik ispin,
      (∀ ipw < nwaves ik, wrap3 (gcoords ipw ik) (nx, ny, nz) ≠ cell) →
      coeff_to_recip nwaves gcoords (nx, ny, nz) coeffs cell ispinor ib ik ispin
        = 0) ∧
    (∀ cell ispinor ib ik ispin j, j < nwaves ik →
      wrap3 (gcoords j ik) (nx, ny, nz) = cell →
      (∀ i < nwaves ik, i ≠ j → wrap3 (gcoords i ik) (nx, ny, nz) ≠ cell) →
      coeff_to_recip nwaves gcoords (nx, ny, nz) coeffs cell ispinor ib ik ispin
        = coeffs j ispinor ib ik ispin) := by
  refine ⟨?_, ?_, ?_⟩
  · intro ipw ik
    have hax : ∀ (c : Int) (n : Nat), 0 < n → coords_to_indices c n < n := by
      intro c n hn
      unfold coords_to_indices
      have h1 : 0 ≤ c % (n : Int) := Int.emod_nonneg c (by omega)
      have h2 : c % (n : Int) < (n : Int) :=
        Int.emod_lt_of_pos c (by exact_mod_cast hn)
      omega
    exact ⟨hax _ nx hx, hax _ ny hy, hax _ nz hz⟩
  · intro cell ispinor ib ik ispin h
    exact scatter_fold_no_match (nwaves ik) (fun ipw => gcoords ipw ik)
      (nx, ny, nz) (fun ipw => coeffs ipw ispinor ib ik ispin) cell h
  · intro cell ispinor ib ik ispin j hj hcell huniq
    exact scatter_fold_unique (nwaves ik) (fun ipw => gcoords ipw ik)
      (nx, ny, nz) (fun ipw => coeffs ipw ispinor ib ik ispin) cell j hj hcell
      huniq

/-- Witness for C7: a single plane wave with coordinate `(-1, 0, 0)` on a
`(4, 4, 4)` mesh lands at wrapped index `(3, 0, 0)` with its coefficient,
and every other cell (e.g. `(0, 0, 0)`) stays zero. -/
theorem coeff_to_recip_scatter_witness :
    wrap3 (-1, 0, 0) (4, 4, 4) = (3, 0, 0) ∧
    coeff_to_recip (fun _ => 1) (fun _ _ => (-1, 0, 0)) (4, 4, 4)
      (fun _ _ _ _ _ => 5) (3, 0, 0) 0 0 0 0 = 5 ∧
    coeff_to_recip (fun _ => 1) (fun _ _ => (-1, 0, 0)) (4, 4, 4)
      (fun _ _ _ _ _ => 5) (0, 0, 0) 0 0 0 0 = 0 :=
  ⟨by decide,
   (coeff_to_recip_scatter 4 4 4 (by decide) (by decide) (by decide)
      (fun _ => 1) (fun _ _ => (-1, 0, 0)) (fun _ _ _ _ _ => 5)).2.2
     (3, 0, 0) 0 0 0 0 0 (by decide) (by decide)
     (fun i hi hne => absurd (Nat.lt_one_iff.mp hi) hne),
   (coeff_to_recip_scatter 4 4 4 (by decide) (by decide) (by decide)
      (fun _ => 1) (fun _ _ => (-1, 0, 0)) (fun _ _ _ _ _ => 5)).2.1
     (0, 0, 0) 0 0 0 0 (fun ipw _ => by decide)⟩

/-! ## `WaveFunction.__init__` occupancy fix-up (`wave.py`)

The constructor keeps a reference to the caller's occupancy array.  When
the occupancies sum to zero it mutates that very array in place
(`self.occupancies[self.eigenvalues < self.fermi_energy] = 1.0`); otherwise
the array is left untouched.  Aliasing is modelled with a heap mapping
array addresses to contents; the constructor returns the heap after
construction together with the address stored in `self.occupancies`. -/

/-- The masked update: entries whose eigenvalue is strictly below the fermi
energy become 1, others keep their value (`occupancies` and `eigenvalues`
share the shape `(nbands, nkpts, nspins)`; the flattened arrays are
combined elementwise). -/
def occ_fixup (occ eig : List ℚ) (fermi : ℚ) : List ℚ :=
  (occ.zip eig).map (fun p => if p.2 < fermi then 1 else p.1)

/-- `WaveFunction.__init__`, restricted to its occupancy effect. -/
def wavefunction_init (heap : Nat → List ℚ) (occAddr eigAddr : Nat)
    (fermi : ℚ) : (Nat → List ℚ) × Nat :=
  if (heap occAddr).sum = 0 then
    (fun a => if a = occAddr then occ_fixup (heap occAddr) (heap eigAddr) fermi
      else heap a, occAddr)
  else (heap, occAddr)

theorem occ_fixup_getD (occ eig : List ℚ) (f : ℚ) (i : Nat)
    (h1 : i < occ.length) (h2 : i < eig.length) :
    (occ_fixup occ eig f).getD i 0 =
      if eig.getD i 0 < f then 1 else occ.getD i 0 := by
  induction occ generalizing eig i with
  | nil => simp at h1
  | cons a t ih =>
    cases eig with
    | nil => simp at h2
    | cons b s =>
      cases i with
      | zero => rfl
      | succ n =>
        have := ih s n (by simpa using h1) (by simpa using h2)
        simpa [occ_fixup, List.getD] using this

/-- C10: constructing a `WaveFunction` whose occupancies sum to zero
mutates the caller's array in place, setting every entry whose eigenvalue
is strictly below the fermi energy to 1 (the stored reference is the
caller's address, and no other array is touched); when the sum is nonzero
the heap is unchanged. -/
theorem wavefunction_init_frame (heap : Nat → List ℚ) (occAddr eigAddr : Nat)
    (fermi : ℚ) :
    ((heap occAddr).sum = 0 →
      (wavefunction_init heap occAddr eigAddr fermi).2 = occAddr ∧
      (wavefunction_init heap occAddr eigAddr fermi).1 occAddr =
        occ_fixup (heap occAddr) (heap eigAddr) fermi ∧
      (∀ i, i < (heap occAddr).length → i < (heap eigAddr).length →
        ((wavefunction_init heap occAddr eigAddr fermi).1 occAddr).getD i 0 =
          if (heap eigAddr).getD i 0 < fermi then 1
          else (heap occAddr).getD i 0) ∧
      (∀ a, a ≠ occAddr →
        (wavefunction_init heap occAddr eigAddr fermi).1 a = heap a)) ∧
    ((heap occAddr).sum ≠ 0 →
      (wavefunction_init heap occAddr eigAddr fermi).2 = occAddr ∧
      (wavefunction_init heap occAddr eigAddr fermi).1 = heap) := by
  constructor
  · intro hz
    unfold wavefunction_init
    rw [if_pos hz]
    refine ⟨rfl, by simp, ?_, ?_⟩
    · intro i h1 h2
      simp only [if_pos rfl]
      exact occ_fixup_getD _ _ _ i h1 h2
    · intro a ha
      simp [ha]
  · intro hnz
    unfold wavefunction_init
    rw [if_neg hnz]
    exact ⟨rfl, rfl⟩

/-- Witness for C10: occupancies `[0, 0]` (sum zero) with eigenvalues
`[-1, 2]` and fermi energy 0 are rewritten in place to `[1, 0]`; with
occupancies `[2, 0]` (sum nonzero) the heap is untouched. -/
theorem wavefunction_init_frame_witness :
    ((wavefunction_init
        (fun a => if a = 0 then [0, 0] else [-1, 2]) 0 1 0).1 0 = [1, 0]) ∧
    ((wavefunction_init
        (fun a => if a = 0 then [2, 0] else [-1, 2]) 0 1 0).1 = 
      (fun a => if a = 0 then [2, 0] else [-1, 2])) :=
  ⟨by rw [((wavefunction_init_frame
        (fun a => if a = 0 then [0, 0] else [-1, 2]) 0 1 0).1
        (by norm_num)).2.1]
      rfl,
   ((wavefunction_init_frame
        (fun a => if a = 0 then [2, 0] else [-1, 2]) 0 1 0).2
        (by norm_num)).2⟩

/-! ## Header index builder (`_generate_header_offset_map`,
`_find_header_suffix`)

Header names are lists of characters.  The scan is modelled at record
granularity: each scanned record contributes either `none` (payload not
decodable as text — skipped silently) or its stripped text payload,
together with the stream position after the record (`f.tell()`), which is
what the offset map stores. -/

abbrev HdrName := List Char

/-- Decimal rendering of a natural number. -/
def natDigits (n : Nat) : List Char :=
  if _h : n < 10 then [Nat.digitChar n]
  else natDigits (n / 10) ++ [Nat.digitChar (n % 10)]
termination_by n
decreasing_by exact Nat.div_lt_self (by omega) (by omega)

/-- `f"{counter:02d}"`: zero-padded to at least two digits. -/
def twoDigits (c : Nat) : List Char :=
  if c < 10 then ['0', Nat.digitChar c] else natDigits c

/-- Value of a digit run (the regex group `(\d+)`). -/
def digitsVal (l : List Char) : Nat :=
  l.foldl (fun acc ch => acc * 10 + (ch.toNat - 48)) 0

/-- Strip an expected leading run from a list; `none` if it is absent. -/
def dropStart : HdrName → HdrName → Option HdrName
  | [], k => some k
  | _, [] => none
  | c :: cs, d :: ds => if c = d then dropStart cs ds else none

/-- `re.match(f"{name}_(\\d+)", key)`: succeeds when `key` starts with
`name ++ "_"` followed by at least one digit; returns the value of the
maximal digit run after the underscore. -/
def suffixNum (name key : HdrName) : Option Nat :=
  match dropStart (name ++ ['_']) key with
  | none => none
  | some rest =>
    let digits := rest.takeWhile (fun ch => ch.isDigit)
    if digits.isEmpty then none else some (digitsVal digits)

/-- One iteration of the `_find_header_suffix` loop:
`if num >= counter: counter = num + 1`. -/
def suffix_counter_step (name : HdrName) (c : Nat) (k : HdrName) : Nat :=
  match suffixNum name k with
  | some num => if c ≤ num then num + 1 else c
  | none => c

/-- `_find_header_suffix`: scan the existing keys for `name_NN` matches,
set the counter above all of them, and return `f"{name}_{counter:02d}"`. -/
def find_header_suffix (name : HdrName) (keys : List HdrName) : HdrName :=
  name ++ '_' :: twoDigits (keys.foldl (suffix_counter_step name) 1)

/-- Header acceptance test of the scan loop:
`data and data[0].isalpha() and data.upper() == data` (for ASCII payloads,
upper-invariance is the absence of lowercase letters). -/
def isHeaderName (s : HdrName) : Bool :=
  match s with
  | [] => false
  | c :: _ => c.isAlpha && s.all (fun ch => !ch.isLower)

/-- The scan loop of `_generate_header_offset_map` over the records of the
file (up to and including the terminating `END`): undecodable payloads are
skipped, header-shaped payloads are inserted under their name, a name
already present being first routed through `_find_header_suffix`. -/
def scan_headers : List (Option HdrName × Nat) → List (HdrName × Nat) →
    List (HdrName × Nat)
  | [], m => m
  | (none, _) :: rest, m => scan_headers rest m
  | (some s, off) :: rest, m =>
    if isHeaderName s then
      if (m.map Prod.fst).contains s then
        scan_headers rest (m ++ [(find_header_suffix s (m.map Prod.fst), off)])
      else scan_headers rest (m ++ [(s, off)])
    else scan_headers rest m

theorem digitChar_isDigit (m : Nat) (h : m < 10) :
    (Nat.digitChar m).isDigit = true := by
  interval_cases m <;> decide

theorem digitChar_val (m : Nat) (h : m < 10) :
    (Nat.digitChar m).toNat - 48 = m := by
  interval_cases m <;> decide

theorem digitsVal_append_single (xs : List Char) (d : Char) :
    digitsVal (xs ++ [d]) = digitsVal xs * 10 + (d.toNat - 48) := by
  simp [digitsVal, List.foldl_append]

theorem natDigits_ne_nil (n : Nat) : natDigits n ≠ [] := by
  rw [natDigits]
  by_cases h : n < 10
  · rw [dif_pos h]; simp
  · rw [dif_neg h]; simp

theorem natDigits_all_digit (n : Nat) :
    ∀ c ∈ natDigits n, c.isDigit = true := by
  induction n using Nat.strong_induction_on with
  | _ n ih =>
    rw [natDigits]
    by_cases h : n < 10
    · rw [dif_pos h]
      intro c hc
      rw [List.mem_singleton] at hc
      subst hc
      exact digitChar_isDigit n h
    · rw [dif_neg h]
      intro c hc
      rw [List.mem_append] at hc
      cases hc with
      | inl hmem => exact ih (n / 10) (Nat.div_lt_self (by omega) (by omega)) c hmem
      | inr hmem =>
        rw [List.mem_singleton] at hmem
        subst hmem
        exact digitChar_isDigit (n % 10) (Nat.mod_lt _ (by omega))

theorem digitsVal_natDigits (n : Nat) : digitsVal (natDigits n) = n := by
  induction n using Nat.strong_induction_on with
  | _ n ih =>
    rw [natDigits]
    by_cases h : n < 10
    · rw [dif_pos h]
      show 0 * 10 + ((Nat.digitChar n).toNat - 48) = n
      rw [digitChar_val n h]
      omega
    · rw [dif_neg h, digitsVal_append_single,
        ih (n / 10) (Nat.div_lt_self (by omega) (by omega)),
        digitChar_val (n % 10) (Nat.mod_lt _ (by omega))]
      omega

theorem twoDigits_ne_nil (c : Nat) : twoDigits c ≠ [] := by
  unfold twoDigits
  by_cases h : c < 10
  · rw [if_pos h]; simp
  · rw [if_neg h]; exact natDigits_ne_nil c

theorem twoDigits_all_digit (c : Nat) :
    ∀ ch ∈ twoDigits c, ch.isDigit = true := by
  unfold twoDigits
  by_cases h : c < 10
  · rw [if_pos h]
    intro ch hch
    rw [List.mem_cons, List.mem_singleton] at hch
    rcases hch with h0 | h1
    · subst h0; decide
    · subst h1; exact digitChar_isDigit c h
  · rw [if_neg h]
    exact natDigits_all_digit c

theorem digitsVal_twoDigits (c : Nat) : digitsVal (twoDigits c) = c := by
  unfold twoDigits
  by_cases h : c < 10
  · rw [if_pos h]
    show (0 * 10 + ('0'.toNat - 48)) * 10 + ((Nat.digitChar c).toNat - 48) = c
    rw [digitChar_val c h]
    have h0 : '0'.toNat - 48 = 0 := by decide
    rw [h0]
    omega
  · rw [if_neg h]
    exact digitsVal_natDigits c

theorem dropStart_self_append (xs ys : HdrName) :
    dropStart xs (xs ++ ys) = some ys := by
  induction xs with
  | nil => simp [dropStart]
  | cons c cs ih => simp [dropStart, ih]

theorem takeWhile_all_digits (ds : List Char)
    (h : ∀ c ∈ ds, c.isDigit = true) :
    ds.takeWhile (fun ch => ch.isDigit) = ds := by
  induction ds with
  | nil => rfl
  | cons c cs ih =>
    rw [List.takeWhile_cons_of_pos (h c (List.mem_cons_self c cs))]
    rw [ih (fun x hx => h x (List.mem_cons_of_mem c hx))]

theorem suffixNum_self_suffix (name : HdrName) (ds : List Char)
    (hne : ds ≠ []) (hd : ∀ c ∈ ds, c.isDigit = true) :
    suffixNum name (name ++ '_' :: ds) = some (digitsVal ds) := by
  unfold suffixNum
  have hds : name ++ '_' :: ds = (name ++ ['_']) ++ ds := by simp
  rw [hds, dropStart_self_append]
  dsimp only
  rw [takeWhile_all_digits ds hd]
  rw [if_neg (by simpa using hne)]

theorem suffix_counter_step_ge (name : HdrName) (c : Nat) (k : HdrName) :
    c ≤ suffix_counter_step name c k := by
  unfold suffix_counter_step
  cases suffixNum name k with
  | none => exact le_refl c
  | some num =>
    show c ≤ if c ≤ num then num + 1 else c
    by_cases h : c ≤ num
    · rw [if_pos h]; omega
    · rw [if_neg h]

theorem foldl_counter_mono (name : HdrName) (keys : List HdrName) :
    ∀ init, init ≤ keys.foldl (suffix_counter_step name) init := by
  induction keys with
  | nil => intro init; exact le_refl init
  | cons k ks ih =>
    intro init
    rw [List.foldl_cons]
    exact le_trans (suffix_counter_step_ge name init k)
      (ih (suffix_counter_step name init k))

theorem suffix_counter_step_gt (name : HdrName) (c : Nat) (k : HdrName)
    (num : Nat) (h : suffixNum name k = some num) :
    num < suffix_counter_step name c k := by
  unfold suffix_counter_step
  rw [h]
  show num < if c ≤ num then num + 1 else c
  by_cases hc : c ≤ num
  · rw [if_pos hc]; omega
  · rw [if_neg hc]; omega

theorem foldl_counter_bound (name : HdrName) (keys : List HdrName) :
    ∀ init, ∀ k ∈ keys, ∀ num, suffixNum name k = some num →
      num < keys.foldl (suffix_counter_step name) init := by
  induction keys with
  | nil => intro _ k hk; exact absurd hk (List.not_mem_nil k)
  | cons k0 ks ih =>
    intro init k hk num hs
    rw [List.foldl_cons]
    rw [List.mem_cons] at hk
    cases hk with
    | inl heq =>
      subst heq
      exact lt_of_lt_of_le (suffix_counter_step_gt name init k num hs)
        (foldl_counter_mono name ks _)
    | inr hmem => exact ih _ k hmem num hs

/-- The key synthesized by `_find_header_suffix` never collides with an
existing key: its suffix value equals the final counter, which is strictly
above every suffix value occurring in the map. -/
theorem find_header_suffix_fresh (name : HdrName) (keys : List HdrName) :
    find_header_suffix name keys ∉ keys := by
  intro hmem
  have hsn : suffixNum name (find_header_suffix name keys) =
      some (keys.foldl (suffix_counter_step name) 1) := by
    unfold find_header_suffix
    rw [suffixNum_self_suffix name _ (twoDigits_ne_nil _) (twoDigits_all_digit _),
      digitsVal_twoDigits]
  have := foldl_counter_bound name keys 1 _ hmem _ hsn
  omega

/-- Uniqueness of the keys built by the scan loop. -/
theorem scan_headers_nodup (recs : List (Option HdrName × Nat)) :
    ∀ m : List (HdrName × Nat), (m.map Prod.fst).Nodup →
      ((scan_headers recs m).map Prod.fst).Nodup := by
  induction recs with
  | nil => intro m hm; exact hm
  | cons r rest ih =>
    intro m hm
    obtain ⟨p, off⟩ := r
    cases p with
    | none => exact ih m hm
    | some s =>
      by_cases hh : isHeaderName s = true
      · by_cases hcont : (m.map Prod.fst).contains s = true
        · rw [scan_headers, if_pos hh, if_pos hcont]
          apply ih
          rw [List.map_append]
          refine List.Nodup.append hm (List.nodup_singleton _) ?_
          intro x hx hx2
          simp only [List.map_cons, List.map_nil, List.mem_singleton] at hx2
          subst hx2
          exact find_header_suffix_fresh s (m.map Prod.fst) hx
        · rw [scan_headers, if_pos hh, if_neg hcont]
          apply ih
          rw [List.map_append]
          refine List.Nodup.append hm (List.nodup_singleton _) ?_
          intro x hx hx2
          simp only [List.map_cons, List.map_nil, List.mem_singleton] at hx2
          subst hx2
          exact hcont (List.elem_iff.mpr hx)
      · rw [scan_headers, if_neg hh]
        exact ih m hm

/-- C8: the keys of the header offset map are unique: the first occurrence
of a header keeps the plain name, and a re-occurrence is stored under
`<name>_NN` where `NN` is strictly greater than every numeric suffix of
that base name already in the map (so `NN` strictly increases per base
name) — in particular the synthesized key never collides with an existing
key.  A file containing the header `CELL%NUM_IONS` twice yields exactly
the keys `CELL%NUM_IONS` and `CELL%NUM_IONS_01`, in order of appearance. -/
theorem header_offset_map_keys (recs : List (Option HdrName × Nat)) :
    ((scan_headers recs []).map Prod.fst).Nodup ∧
    (∀ (s : HdrName) (keys : List HdrName),
      find_header_suffix s keys ∉ keys ∧
      find_header_suffix s keys =
        s ++ '_' :: twoDigits (keys.foldl (suffix_counter_step s) 1) ∧
      (∀ k ∈ keys, ∀ num, suffixNum s k = some num →
        num < keys.foldl (suffix_counter_step s) 1)) ∧
    scan_headers
      [(some "CELL%NUM_IONS".data, 11), (some "CELL%NUM_IONS".data, 22)] [] =
      [("CELL%NUM_IONS".data, 11), ("CELL%NUM_IONS_01".data, 22)] := by
  refine ⟨scan_headers_nodup recs [] (by simp), ?_, ?_⟩
  · intro s keys
    exact ⟨find_header_suffix_fresh s keys, rfl,
      fun k hk num hs => foldl_counter_bound s keys 1 k hk num hs⟩
  · rfl

/-- Witness for C8: the double `CELL%NUM_IONS` file has duplicate-free
keys, and the synthesized suffix key is fresh. -/
theorem header_offset_map_keys_witness :
    ((scan_headers
        [(some "CELL%NUM_IONS".data, 11), (some "CELL%NUM_IONS".data, 22)]
        []).map Prod.fst).Nodup ∧
    find_header_suffix "CELL%NUM_IONS".data ["CELL%NUM_IONS".data] ∉
      (["CELL%NUM_IONS".data] : List HdrName) :=
  ⟨(header_offset_map_keys
      [(some "CELL%NUM_IONS".data, 11), (some "CELL%NUM_IONS".data, 22)]).1,
   ((header_offset_map_keys []).2.1 "CELL%NUM_IONS".data
      ["CELL%NUM_IONS".data]).1⟩

/-! ## Top-level dispatcher (`read_castep_bin`)

`read_castep_bin` first scans the stream for headers, then — only when its
`spec` parameter is `None` — assigns the local `_spec` to one of the two
field tables (checkpoint or standard, by the scan's verdict), and finally
iterates `_spec`, decoding each present header's field tuple into the
shared dictionary.  When `spec` is not `None`, `_spec` is never assigned,
so the loop's first access to it raises `UnboundLocalError`.  The field
tuples (`F`) and the decoded dictionary (`D`) are type parameters and the
per-header decode (`_decode_records`) a function parameter: their
behaviour is modelled separately above. -/

abbrev HeaderMap := List (HdrName × Nat)

/-- Offset lookup in the header map. -/
def hdrLookup (hm : HeaderMap) (h : HdrName) : Option Nat :=
  (hm.find? (fun p => p.1 == h)).map (fun p => p.2)

/-- `header.startswith("CELL%")`. -/
def startsWithCell (h : HdrName) : Bool :=
  (dropStart "CELL%".data h).isSome

/-- `records_to_extract and header not in records_to_extract and not
header.startswith("CELL%")` (a `None` or empty filter is falsy). -/
def filter_excludes (rte : Option (List HdrName)) (h : HdrName) : Bool :=
  match rte with
  | none => false
  | some names => !names.isEmpty && !names.contains h && !startsWithCell h

/-- `records_to_extract and header in records_to_extract`. -/
def filter_requires (rte : Option (List HdrName)) (h : HdrName) : Bool :=
  match rte with
  | none => false
  | some names => !names.isEmpty && names.contains h

/-- The `for header, field in _spec.items()` loop: skip a header excluded
by a truthy (`≠ None` and nonempty) filter unless it is in the `CELL%`
family; fail if an explicitly requested header is absent from the file;
skip silently if an unrequested one is absent; otherwise decode at the
header's offset, threading the dictionary. -/
def dispatch_loop {F D : Type} (step : F → Nat → D → Except DErr D)
    (hm : HeaderMap) (rte : Option (List HdrName)) :
    List (HdrName × F) → D → Except DErr D
  | [], d => .ok d
  | (h, fld) :: rest, d =>
    if filter_excludes rte h then
      dispatch_loop step hm rte rest d
    else
      match hdrLookup hm h with
      | none =>
        if filter_requires rte h then .error .headerNotFound
        else dispatch_loop step hm rte rest d
      | some off =>
        match step fld off d with
        | .error e => .error e
        | .ok d1 => dispatch_loop step hm rte rest d1

/-- `read_castep_bin`: `scanResult` is the outcome of
`_generate_header_offset_map` (which runs first and may itself fail on a
malformed stream); `binSpec`/`checkSpec` are `CASTEP_BIN_FIELD_SPEC` and
`CASTEP_CHECK_FIELD_SPEC`; `empty` is the fresh `castep_data` dictionary.
The local `_spec` is `Option`-valued to model Python's unbound local: it
is assigned only under `if spec is None:`. -/
def read_castep_bin {F D : Type} (scanResult : Except DErr (Bool × HeaderMap))
    (records_to_extract : Option (List HdrName))
    (spec : Option (List (HdrName × F)))
    (binSpec checkSpec : List (HdrName × F))
    (step : F → Nat → D → Except DErr D) (empty : D) : Except DErr D :=
  match scanResult with
  | .error e => .error e
  | .ok (isCheck, hm) =>
    let uspec : Option (List (HdrName × F)) :=
      match spec with
      | none => some (if isCheck then checkSpec else binSpec)
      | some _ => none
    match uspec with
    | none => .error .unboundLocalSpec
    | some sp => dispatch_loop step hm records_to_extract sp empty

/-- C9: whenever the caller passes a non-`None` `spec` (and the header scan
itself succeeds), `read_castep_bin` fails with the unbound-local error
before any section is decoded — the result does not depend on the supplied
spec `s`, on the decode step, or on anything else; with `spec = None` the
dispatcher instead runs over the auto-selected table. -/
theorem read_castep_bin_unbound_spec {F D : Type} (isCheck : Bool)
    (hm : HeaderMap) (rte : Option (List HdrName)) (s : List (HdrName × F))
    (binSpec checkSpec : List (HdrName × F))
    (step : F → Nat → D → Except DErr D) (empty : D) :
    read_castep_bin (.ok (isCheck, hm)) rte (some s) binSpec checkSpec step
        empty = .error .unboundLocalSpec ∧
    read_castep_bin (.ok (isCheck, hm)) rte none binSpec checkSpec step
        empty =
      dispatch_loop step hm rte (if isCheck then checkSpec else binSpec)
        empty :=
  ⟨rfl, rfl⟩

/-- Witness for C9 at concrete instantiations (unit field tuples and
dictionary): a supplied spec yields the unbound-local error. -/
theorem read_castep_bin_unbound_spec_witness :
    read_castep_bin (.ok (false, [])) none
        (some [("FORCES".data, ())]) [] [] (fun _ _ d => .ok d) () =
      .error .unboundLocalSpec :=
  (read_castep_bin_unbound_spec false [] none [("FORCES".data, ())] [] []
    (fun _ _ d => .ok d) ()).1
